import Mathlib

/-!
Verification of the core logic of the repository's tools:
the Caesar-cipher transform (`caesar_transform` with its helpers
`_shift_alpha`, `_shift_digit`) and the password-generation engine
(`build_charset`, `ensure_each_category`, `generate_password`,
`estimate_entropy`, `strength_label`).

Strings are embedded as `List Char`; Python integers as `Int`/`Nat`
(Python's `%` on a positive modulus agrees with `Int.emod`); the
cryptographically secure random source (`secrets`) is embedded as an
arbitrary stream `σ : Nat → Nat` of draw values, consumed in program
order, with each bounded draw `secrets.randbelow(n)` /
`secrets.choice(seq)` reading the next stream value reduced modulo its
bound.  Theorems quantified over all streams therefore cover every
possible behaviour of the random source.
-/

/-! ## Character-level helper lemmas -/

/-- Characters below the surrogate range round-trip through `Char.ofNat`. -/
theorem toNat_ofNat_valid (n : Nat) (h : n < 55296) : (Char.ofNat n).toNat = n := by
  have hv : n.isValidChar := Or.inl h
  rw [Char.ofNat, dif_pos hv]
  simp [Char.ofNatAux, Char.toNat, UInt32.toNat, BitVec.toNat_ofNatLt]

/-- Numeric characterisation of `Char.isUpper`. -/
theorem isUpper_iff (c : Char) : c.isUpper = true ↔ 65 ≤ c.toNat ∧ c.toNat ≤ 90 := by
  simp [Char.isUpper, UInt32.le_def, BitVec.le_def, Char.toNat, UInt32.toNat]

/-- Numeric characterisation of `Char.isLower`. -/
theorem isLower_iff (c : Char) : c.isLower = true ↔ 97 ≤ c.toNat ∧ c.toNat ≤ 122 := by
  simp [Char.isLower, UInt32.le_def, BitVec.le_def, Char.toNat, UInt32.toNat]

/-- Numeric characterisation of `Char.isDigit`. -/
theorem isDigit_iff (c : Char) : c.isDigit = true ↔ 48 ≤ c.toNat ∧ c.toNat ≤ 57 := by
  simp [Char.isDigit, UInt32.le_def, BitVec.le_def, Char.toNat, UInt32.toNat]

/-- Characters with equal code points are equal. -/
theorem char_eq_of_toNat_eq {c d : Char} (h : c.toNat = d.toNat) : c = d :=
  Char.ext (UInt32.toNat.inj h)

/-! ## Caesar-cipher core (`encode.py`, lines 46-86) -/

/-- Embedding of `_shift_alpha(ch, k, encode)`: Caesar-shift a single
letter, leaving non-letters untouched. -/
def _shift_alpha (ch : Char) (k : Int) (encode : Bool) : Char :=
  if ¬ ch.isAlpha then ch
  else
    let base : Int := if ch.isUpper then ('A'.toNat : Int) else ('a'.toNat : Int)
    let off : Int := (ch.toNat : Int) - base
    let k2 : Int := k % 26
    let v : Int := if encode then (off + k2) % 26 else (off - k2) % 26
    Char.ofNat (base + v).toNat

/-- Embedding of `_shift_digit(d, k, encode)`: rotate a single decimal
digit, leaving non-digits untouched. -/
def _shift_digit (d : Char) (k : Int) (encode : Bool) : Char :=
  if ¬ d.isDigit then d
  else
    let k2 : Int := k % 10
    let off : Int := (d.toNat : Int) - ('0'.toNat : Int)
    let v : Int := if encode then (off + k2) % 10 else (off - k2) % 10
    Char.ofNat (('0'.toNat : Int) + v).toNat

/-- Embedding of Python's `str.lower()` as used on the `mode` argument:
lower-case the string character by character. -/
def str_lower (s : String) : String :=
  ⟨s.data.map Char.toLower⟩

/-- Embedding of `caesar_transform(text, shift, mode, rotate_digits)`:
letters are Caesar-shifted, digits optionally rotated, everything else
is copied unchanged. -/
def caesar_transform (text : List Char) (shift : Int) (mode : String)
    (rotate_digits : Bool) : List Char :=
  let encode := str_lower mode == "encode"
  let s26 := shift % 26
  let s10 := shift % 10
  text.map (fun ch =>
    if ch.isAlpha then _shift_alpha ch s26 encode
    else if rotate_digits && ch.isDigit then _shift_digit ch s10 encode
    else ch)

/-! ### Lemmas about the Caesar helpers -/

/-- Code point of an encoded uppercase letter. -/
theorem shift_alpha_enc_upper (c : Char) (k : Int) (hc : 65 ≤ c.toNat ∧ c.toNat ≤ 90) :
    (_shift_alpha c k true).toNat
      = ((65 : Int) + (((c.toNat : Int) - 65) + k % 26) % 26).toNat := by
  have hu : c.isUpper = true := (isUpper_iff c).mpr hc
  have ha : c.isAlpha = true := by simp [Char.isAlpha, hu]
  have hA : ('A'.toNat : Int) = 65 := rfl
  simp only [_shift_alpha, ha, hu, not_true, if_false, if_true, hA]
  rw [toNat_ofNat_valid _ (by omega)]

/-- Code point of a decoded uppercase letter. -/
theorem shift_alpha_dec_upper (c : Char) (k : Int) (hc : 65 ≤ c.toNat ∧ c.toNat ≤ 90) :
    (_shift_alpha c k false).toNat
      = ((65 : Int) + (((c.toNat : Int) - 65) - k % 26) % 26).toNat := by
  have hu : c.isUpper = true := (isUpper_iff c).mpr hc
  have ha : c.isAlpha = true := by simp [Char.isAlpha, hu]
  have hA : ('A'.toNat : Int) = 65 := rfl
  simp only [_shift_alpha, ha, hu, not_true, if_false, if_true, hA, Bool.false_eq_true]
  rw [toNat_ofNat_valid _ (by omega)]

/-- Code point of an encoded lowercase letter. -/
theorem shift_alpha_enc_lower (c : Char) (k : Int) (hc : 97 ≤ c.toNat ∧ c.toNat ≤ 122) :
    (_shift_alpha c k true).toNat
      = ((97 : Int) + (((c.toNat : Int) - 97) + k % 26) % 26).toNat := by
  have hl : c.isLower = true := (isLower_iff c).mpr hc
  have hu : c.isUpper = false := by
    rcases h : c.isUpper with _ | _
    · rfl
    · have := (isUpper_iff c).mp h
      omega
  have ha : c.isAlpha = true := by simp [Char.isAlpha, hl]
  have hA : ('a'.toNat : Int) = 97 := rfl
  simp only [_shift_alpha, ha, hu, not_true, if_false, if_true, hA, Bool.false_eq_true]
  rw [toNat_ofNat_valid _ (by omega)]

/-- Code point of a decoded lowercase letter. -/
theorem shift_alpha_dec_lower (c : Char) (k : Int) (hc : 97 ≤ c.toNat ∧ c.toNat ≤ 122) :
    (_shift_alpha c k false).toNat
      = ((97 : Int) + (((c.toNat : Int) - 97) - k % 26) % 26).toNat := by
  have hl : c.isLower = true := (isLower_iff c).mpr hc
  have hu : c.isUpper = false := by
    rcases h : c.isUpper with _ | _
    · rfl
    · have := (isUpper_iff c).mp h
      omega
  have ha : c.isAlpha = true := by simp [Char.isAlpha, hl]
  have hA : ('a'.toNat : Int) = 97 := rfl
  simp only [_shift_alpha, ha, hu, not_true, if_false, if_true, hA, Bool.false_eq_true]
  rw [toNat_ofNat_valid _ (by omega)]

/-- Code point of an encoded digit. -/
theorem shift_digit_enc (c : Char) (k : Int) (hc : 48 ≤ c.toNat ∧ c.toNat ≤ 57) :
    (_shift_digit c k true).toNat
      = ((48 : Int) + (((c.toNat : Int) - 48) + k % 10) % 10).toNat := by
  have hd : c.isDigit = true := (isDigit_iff c).mpr hc
  have h0 : ('0'.toNat : Int) = 48 := rfl
  simp only [_shift_digit, hd, not_true, if_false, if_true, h0, Bool.false_eq_true]
  rw [toNat_ofNat_valid _ (by omega)]

/-- Code point of a decoded digit. -/
theorem shift_digit_dec (c : Char) (k : Int) (hc : 48 ≤ c.toNat ∧ c.toNat ≤ 57) :
    (_shift_digit c k false).toNat
      = ((48 : Int) + (((c.toNat : Int) - 48) - k % 10) % 10).toNat := by
  have hd : c.isDigit = true := (isDigit_iff c).mpr hc
  have h0 : ('0'.toNat : Int) = 48 := rfl
  simp only [_shift_digit, hd, not_true, if_false, if_true, h0, Bool.false_eq_true]
  rw [toNat_ofNat_valid _ (by omega)]

/-- A character with a code point outside `[65, 90]` is not uppercase. -/
theorem not_isUpper_of_toNat (c : Char) (h : c.toNat < 65 ∨ 90 < c.toNat) :
    c.isUpper = false := by
  rcases hx : c.isUpper with _ | _
  · rfl
  · have := (isUpper_iff c).mp hx
    omega

/-- A character with a code point outside `[97, 122]` is not lowercase. -/
theorem not_isLower_of_toNat (c : Char) (h : c.toNat < 97 ∨ 122 < c.toNat) :
    c.isLower = false := by
  rcases hx : c.isLower with _ | _
  · rfl
  · have := (isLower_iff c).mp hx
    omega

/-- Encoding a letter yields a letter. -/
theorem shift_alpha_enc_isAlpha (c : Char) (k : Int) (h : c.isAlpha = true) :
    (_shift_alpha c k true).isAlpha = true := by
  have hab : c.isUpper = true ∨ c.isLower = true := by simpa [Char.isAlpha] using h
  rcases hab with h' | h'
  · have hc := (isUpper_iff c).mp h'
    have henc := shift_alpha_enc_upper c k hc
    have hb : 65 ≤ (_shift_alpha c k true).toNat ∧ (_shift_alpha c k true).toNat ≤ 90 := by
      constructor <;> omega
    simp [Char.isAlpha, (isUpper_iff _).mpr hb]
  · have hc := (isLower_iff c).mp h'
    have henc := shift_alpha_enc_lower c k hc
    have hb : 97 ≤ (_shift_alpha c k true).toNat ∧ (_shift_alpha c k true).toNat ≤ 122 := by
      constructor <;> omega
    simp [Char.isAlpha, (isLower_iff _).mpr hb]

/-- Encoding a digit yields a digit. -/
theorem shift_digit_enc_isDigit (c : Char) (k : Int) (h : c.isDigit = true) :
    (_shift_digit c k true).isDigit = true := by
  have hc := (isDigit_iff c).mp h
  have henc := shift_digit_enc c k hc
  have hb : 48 ≤ (_shift_digit c k true).toNat ∧ (_shift_digit c k true).toNat ≤ 57 := by
    constructor <;> omega
  exact (isDigit_iff _).mpr hb

/-- Encoding a digit never yields a letter. -/
theorem shift_digit_enc_not_isAlpha (c : Char) (k : Int) (h : c.isDigit = true) :
    (_shift_digit c k true).isAlpha = false := by
  have hc := (isDigit_iff c).mp h
  have henc := shift_digit_enc c k hc
  have h1 : (_shift_digit c k true).isUpper = false :=
    not_isUpper_of_toNat _ (by omega)
  have h2 : (_shift_digit c k true).isLower = false :=
    not_isLower_of_toNat _ (by omega)
  simp [Char.isAlpha, h1, h2]

/-- Decoding inverts encoding on a single letter. -/
theorem shift_alpha_roundtrip (c : Char) (k : Int) :
    _shift_alpha (_shift_alpha c k true) k false = c := by
  by_cases ha : c.isAlpha = true
  · have hab : c.isUpper = true ∨ c.isLower = true := by simpa [Char.isAlpha] using ha
    rcases hab with h' | h'
    · have hc := (isUpper_iff c).mp h'
      have henc := shift_alpha_enc_upper c k hc
      have hc2 : 65 ≤ (_shift_alpha c k true).toNat ∧ (_shift_alpha c k true).toNat ≤ 90 := by
        constructor <;> omega
      have hdec := shift_alpha_dec_upper (_shift_alpha c k true) k hc2
      apply char_eq_of_toNat_eq
      rw [hdec, henc]
      omega
    · have hc := (isLower_iff c).mp h'
      have henc := shift_alpha_enc_lower c k hc
      have hc2 : 97 ≤ (_shift_alpha c k true).toNat ∧ (_shift_alpha c k true).toNat ≤ 122 := by
        constructor <;> omega
      have hdec := shift_alpha_dec_lower (_shift_alpha c k true) k hc2
      apply char_eq_of_toNat_eq
      rw [hdec, henc]
      omega
  · have ha' : c.isAlpha = false := by simpa using ha
    simp [_shift_alpha, ha']

/-- Decoding inverts encoding on a single digit. -/
theorem shift_digit_roundtrip (c : Char) (k : Int) :
    _shift_digit (_shift_digit c k true) k false = c := by
  by_cases hd : c.isDigit = true
  · have hc := (isDigit_iff c).mp hd
    have henc := shift_digit_enc c k hc
    have hc2 : 48 ≤ (_shift_digit c k true).toNat ∧ (_shift_digit c k true).toNat ≤ 57 := by
      constructor <;> omega
    have hdec := shift_digit_dec (_shift_digit c k true) k hc2
    apply char_eq_of_toNat_eq
    rw [hdec, henc]
    omega
  · have hd' : c.isDigit = false := by simpa using hd
    simp [_shift_digit, hd']

/-- C8: for every ASCII text, every integer shift and either digit-rotation
flag, decoding the encoding with `caesar_transform` returns the original
text. -/
theorem caesar_roundtrip (text : List Char) (shift : Int) (rotate_digits : Bool)
    (_ascii : ∀ c ∈ text, c.toNat < 128) :
    caesar_transform (caesar_transform text shift "encode" rotate_digits)
      shift "decode" rotate_digits = text := by
  clear _ascii
  induction text with
  | nil => rfl
  | cons c cs ih =>
    simp only [caesar_transform, List.map_cons] at ih ⊢
    rw [ih]
    congr 1
    have he : (str_lower "encode" == "encode") = true := rfl
    have hd : (str_lower "decode" == "encode") = false := rfl
    simp only [he, hd]
    by_cases hca : c.isAlpha = true
    · simp [hca, shift_alpha_enc_isAlpha c (shift % 26) hca, shift_alpha_roundtrip]
    · by_cases hcd : (rotate_digits && c.isDigit) = true
      · have hpair := Bool.and_eq_true_iff.mp hcd
        have h1 := shift_digit_enc_not_isAlpha c (shift % 10) hpair.2
        have h2 := shift_digit_enc_isDigit c (shift % 10) hpair.2
        simp [hca, hpair.1, hpair.2, h1, h2, shift_digit_roundtrip]
      · simp [hca, hcd]

/-- Witness for C8 at a concrete ASCII string and shift. -/
theorem caesar_roundtrip_witness :
    (∀ c ∈ "Hello, World! 123".toList, c.toNat < 128) ∧
      caesar_transform (caesar_transform "Hello, World! 123".toList 5 "encode" true)
        5 "decode" true = "Hello, World! 123".toList :=
  ⟨by decide, caesar_roundtrip _ 5 true (by decide)⟩

/-- C9: `caesar_transform` preserves the length of the input, and every
position holding a character that is neither a letter nor (when digits are
rotated) a digit carries the input character unchanged. -/
theorem caesar_frame (text : List Char) (shift : Int) (mode : String)
    (rotate_digits : Bool) :
    (caesar_transform text shift mode rotate_digits).length = text.length ∧
    ∀ i : Nat, ∀ c : Char, text[i]? = some c → c.isAlpha = false →
      (rotate_digits = true → c.isDigit = false) →
      (caesar_transform text shift mode rotate_digits)[i]? = some c := by
  constructor
  · simp [caesar_transform]
  · intro i c hi hca hcd
    have hrd : (rotate_digits && c.isDigit) = false := by
      cases rotate_digits
      · rfl
      · simp [hcd rfl]
    simp [caesar_transform, List.getElem?_map, hi, hca, hrd]
    intro h1 h2
    rw [hcd h1] at h2
    exact Bool.noConfusion h2

/-- Witness for C9 at a concrete string and position. -/
theorem caesar_frame_witness :
    (caesar_transform "hi, 42!".toList 7 "encode" true).length
        = "hi, 42!".toList.length ∧
      (caesar_transform "hi, 42!".toList 7 "encode" true)[2]? = some ',' := by
  refine ⟨(caesar_frame "hi, 42!".toList 7 "encode" true).1, ?_⟩
  exact (caesar_frame "hi, 42!".toList 7 "encode" true).2 2 ','
    (by decide) (by decide) (fun _ => by decide)

/-! ## Password generator core (`encode.py`, lines 498-563) -/

/-- Alphabet `string.ascii_lowercase`. -/
def LOWER : List Char := "abcdefghijklmnopqrstuvwxyz".toList

/-- Alphabet `string.ascii_uppercase`. -/
def UPPER : List Char := "ABCDEFGHIJKLMNOPQRSTUVWXYZ".toList

/-- Alphabet `string.digits`. -/
def DIGITS : List Char := "0123456789".toList

/-- The symbol alphabet of the source. -/
def SYMBOLS : List Char := "!@#$%^&*()-_=+[]\x7b\x7d;:,.<>/?".toList

/-- Ambiguous characters to optionally exclude. -/
def AMBIG : List Char := "Il1O0".toList

/-- Embedding of `build_charset`: the union charset (with ambiguous
characters removed when requested) together with the list of raw
per-category alphabets chosen. -/
def build_charset (include_lower include_upper include_digits include_symbols
    exclude_ambig : Bool) : List Char × List (List Char) :=
  let parts : List (List Char) :=
    (if include_lower then [LOWER] else []) ++
    (if include_upper then [UPPER] else []) ++
    (if include_digits then [DIGITS] else []) ++
    (if include_symbols then [SYMBOLS] else [])
  let charset := parts.flatten
  let charset := if exclude_ambig then charset.filter (fun ch => decide (ch ∉ AMBIG))
    else charset
  (charset, parts)

/-- Embedding of `ensure_each_category`: remove ambiguous characters from
each chosen per-category alphabet when requested. -/
def ensure_each_category (chosen_parts : List (List Char)) (exclude_ambig : Bool) :
    List (List Char) :=
  chosen_parts.map (fun p =>
    if exclude_ambig then p.filter (fun ch => decide (ch ∉ AMBIG)) else p)

/-- Embedding of `secrets.choice(seq)`: the draw value `r` stands for the
output of the secure generator, reduced modulo the pool size so that every
in-range index is realisable. -/
def choice (seq : List Char) (r : Nat) : Char :=
  seq.getD (r % seq.length) 'a'

/-- Embedding of the comprehension `[secrets.choice(p) for p in parts]`,
threading the index `t` of the next unread stream value. -/
def drawEach (σ : Nat → Nat) (t : Nat) : List (List Char) → List Char
  | [] => []
  | p :: ps => choice p (σ t) :: drawEach σ (t + 1) ps

/-- One swap of the Fisher-Yates loop, `combined[i], combined[j] =
combined[j], combined[i]`; out-of-range indices leave the list unchanged. -/
def swapList (l : List Char) (i j : Nat) : List Char :=
  match l[i]?, l[j]? with
  | some a, some b => (l.set i b).set j a
  | _, _ => l

/-- Embedding of the Fisher-Yates loop `for i in range(len(combined)-1, 0, -1)`:
`t` is the index of the next unread stream value, `i` the loop variable, and
each draw `secrets.randbelow(i+1)` reads the stream modulo `i+1`. -/
def fyAux (σ : Nat → Nat) : Nat → Nat → List Char → List Char
  | _, 0, l => l
  | t, i + 1, l => fyAux σ (t + 1) i (swapList l (i + 1) (σ t % (i + 2)))

/-- Embedding of `generate_password`: draws one character per enabled
non-empty category, falls back to an unconstrained fill when the requested
length is smaller than the number of categories, otherwise pads with
unconstrained draws and applies the secure shuffle.  Stream values are
consumed in program order: values `0..R-1` for the required draws, the
following values for the fill, and the rest for the shuffle. -/
def generate_password (length : Nat) (include_lower include_upper include_digits
    include_symbols exclude_ambig : Bool) (σ : Nat → Nat) :
    Except String (List Char) :=
  let bc := build_charset include_lower include_upper include_digits
    include_symbols exclude_ambig
  let charset := bc.1
  if charset.isEmpty then
    Except.error "Enable at least one character category."
  else
    let parts := ensure_each_category bc.2 exclude_ambig
    let required := drawEach σ 0 (parts.filter (fun p => decide (p ≠ [])))
    if required.length > length then
      Except.ok ((List.range length).map (fun i => choice charset (σ (required.length + i))))
    else
      let others := (List.range (length - required.length)).map
        (fun i => choice charset (σ (required.length + i)))
      let combined := required ++ others
      Except.ok (fyAux σ combined.length (combined.length - 1) combined)

/-- Embedding of `estimate_entropy`: `length * log2(charset_size)` bits, `0`
for an empty charset. -/
noncomputable def estimate_entropy (length charset_size : Int) : Real :=
  if charset_size ≤ 0 then 0
  else (length : Real) * Real.logb 2 (charset_size : Real)

/-- Embedding of `strength_label`: the step function classifying entropy. -/
noncomputable def strength_label (entropy_bits : Real) : String :=
  if entropy_bits < 28 then "Very weak"
  else if entropy_bits < 36 then "Weak"
  else if entropy_bits < 60 then "Reasonable"
  else if entropy_bits < 80 then "Strong"
  else "Very strong"

/-- Embedding of the generation loop of `on_generate`: reject an empty
charset, then generate `count` passwords, each from its own stream. -/
def on_generate (length count : Nat) (include_lower include_upper include_digits
    include_symbols exclude_ambig : Bool) (σs : Nat → Nat → Nat) :
    Except String (List (List Char)) :=
  let bc := build_charset include_lower include_upper include_digits
    include_symbols exclude_ambig
  if bc.1.isEmpty then
    Except.error "Choose at least one character category."
  else
    (List.range count).mapM (fun i => generate_password length include_lower
      include_upper include_digits include_symbols exclude_ambig (σs i))

/-! ### Lemmas about the sampling primitives -/

/-- A draw from a non-empty pool is a member of the pool. -/
theorem choice_mem (seq : List Char) (r : Nat) (h : seq ≠ []) : choice seq r ∈ seq := by
  have hlen : 0 < seq.length := List.length_pos.mpr h
  have hlt : r % seq.length < seq.length := Nat.mod_lt _ hlen
  unfold choice
  rw [List.getD_eq_getElem?_getD, List.getElem?_eq_getElem hlt]
  exact List.getElem_mem hlt

/-- The required set has one draw per pool. -/
theorem drawEach_length (σ : Nat → Nat) (ps : List (List Char)) :
    ∀ t, (drawEach σ t ps).length = ps.length := by
  induction ps with
  | nil => intro t; rfl
  | cons q qs ih => intro t; simp [drawEach, ih]

/-- Every non-empty pool contributes a member to the required set. -/
theorem drawEach_cover (σ : Nat → Nat) (ps : List (List Char)) :
    ∀ t, ∀ p ∈ ps, p ≠ [] → ∃ c ∈ drawEach σ t ps, c ∈ p := by
  induction ps with
  | nil =>
    intro t p hp
    cases hp
  | cons q qs ih =>
    intro t p hp hne
    rcases List.mem_cons.mp hp with rfl | hp'
    · exact ⟨choice p (σ t), List.mem_cons_self _ _, choice_mem _ _ hne⟩
    · obtain ⟨c, hc1, hc2⟩ := ih (t + 1) p hp' hne
      exact ⟨c, List.mem_cons_of_mem _ hc1, hc2⟩

/-- Every character of the required set comes from one of the pools. -/
theorem drawEach_sub (σ : Nat → Nat) (ps : List (List Char))
    (hne : ∀ p ∈ ps, p ≠ []) :
    ∀ t, ∀ c ∈ drawEach σ t ps, ∃ p ∈ ps, c ∈ p := by
  induction ps with
  | nil =>
    intro t c hc
    simp [drawEach] at hc
  | cons q qs ih =>
    intro t c hc
    simp only [drawEach, List.mem_cons] at hc
    rcases hc with rfl | hc'
    · exact ⟨q, List.mem_cons_self _ _, choice_mem _ _ (hne q (List.mem_cons_self _ _))⟩
    · obtain ⟨p, hp1, hp2⟩ :=
        ih (fun p hp => hne p (List.mem_cons_of_mem _ hp)) (t + 1) c hc'
      exact ⟨p, List.mem_cons_of_mem _ hp1, hp2⟩

/-- A swap preserves the length. -/
theorem swapList_length (l : List Char) (i j : Nat) :
    (swapList l i j).length = l.length := by
  unfold swapList
  split
  · simp
  · rfl

/-- A swap preserves the members of the list. -/
theorem swapList_mem_iff (l : List Char) (i j : Nat) (x : Char) :
    x ∈ swapList l i j ↔ x ∈ l := by
  unfold swapList
  split
  next a b hi hj =>
    obtain ⟨hil, ha⟩ := List.getElem?_eq_some_iff.mp hi
    obtain ⟨hjl, hb⟩ := List.getElem?_eq_some_iff.mp hj
    constructor
    · intro hx
      rcases List.mem_or_eq_of_mem_set hx with hx1 | rfl
      · rcases List.mem_or_eq_of_mem_set hx1 with hx2 | rfl
        · exact hx2
        · exact hb ▸ List.getElem_mem hjl
      · exact ha ▸ List.getElem_mem hil
    · intro hx
      rw [List.mem_iff_getElem] at hx ⊢
      obtain ⟨n, hn, hxe⟩ := hx
      by_cases hnj : n = j
      · by_cases hij : i = j
        · refine ⟨j, by simpa using hjl, ?_⟩
          rw [List.getElem_set_self]
          simp_all
        · refine ⟨i, by simpa using hil, ?_⟩
          rw [List.getElem_set_ne (fun hji => hij hji.symm), List.getElem_set_self]
          simp_all
      · by_cases hni : n = i
        · refine ⟨j, by simpa using hjl, ?_⟩
          rw [List.getElem_set_self]
          simp_all
        · refine ⟨n, by simpa using hn, ?_⟩
          rw [List.getElem_set_ne (fun hjn => hnj hjn.symm),
            List.getElem_set_ne (fun hin => hni hin.symm)]
          exact hxe
  next =>
    exact Iff.rfl

/-- The Fisher-Yates loop preserves the length. -/
theorem fyAux_length (σ : Nat → Nat) :
    ∀ i t l, (fyAux σ t i l).length = l.length := by
  intro i
  induction i with
  | zero => intro t l; rfl
  | succ i ih =>
    intro t l
    simp only [fyAux]
    rw [ih, swapList_length]

/-- The Fisher-Yates loop preserves the members of the list. -/
theorem fyAux_mem_iff (σ : Nat → Nat) :
    ∀ i t l x, x ∈ fyAux σ t i l ↔ x ∈ l := by
  intro i
  induction i with
  | zero => intro t l x; exact Iff.rfl
  | succ i ih =>
    intro t l x
    simp only [fyAux]
    rw [ih, swapList_mem_iff]

/-! ### The union charset versus the per-category pools -/

/-- The union charset is the concatenation of the reduced per-category
pools. -/
theorem charset_eq_flatten (il iu idg isym ea : Bool) :
    (build_charset il iu idg isym ea).1
      = (ensure_each_category (build_charset il iu idg isym ea).2 ea).flatten := by
  cases ea
  · simp [build_charset, ensure_each_category]
  · simp [build_charset, ensure_each_category, List.filter_flatten]

/-- Every character of a reduced per-category pool lies in the union
charset. -/
theorem part_subset_charset (il iu idg isym ea : Bool) (p : List Char)
    (hp : p ∈ ensure_each_category (build_charset il iu idg isym ea).2 ea)
    (c : Char) (hc : c ∈ p) : c ∈ (build_charset il iu idg isym ea).1 := by
  rw [charset_eq_flatten]
  exact List.mem_flatten.mpr ⟨p, hp, hc⟩

/-- Main behaviour of `generate_password` on a non-empty charset: it
succeeds, the password has the requested length, every character lies in
the union charset, and when the number of non-empty reduced pools fits in
the requested length every such pool is represented. -/
theorem generate_password_spec (length : Nat) (il iu idg isym ea : Bool)
    (σ : Nat → Nat) (h : (build_charset il iu idg isym ea).1 ≠ []) :
    ∃ pwd,
      generate_password length il iu idg isym ea σ = Except.ok pwd ∧
      pwd.length = length ∧
      (∀ c ∈ pwd, c ∈ (build_charset il iu idg isym ea).1) ∧
      (((ensure_each_category (build_charset il iu idg isym ea).2 ea).filter
            (fun p => decide (p ≠ []))).length ≤ length →
        ∀ p ∈ ensure_each_category (build_charset il iu idg isym ea).2 ea, p ≠ [] →
          ∃ c ∈ pwd, c ∈ p) := by
  have hce : (build_charset il iu idg isym ea).1.isEmpty = false := by
    rw [Bool.eq_false_iff]
    intro hx
    exact h (List.isEmpty_iff.mp hx)
  have hne : ∀ p ∈ (ensure_each_category (build_charset il iu idg isym ea).2 ea).filter
      (fun p => decide (p ≠ [])), p ≠ [] := by
    intro p hp
    simpa using (List.mem_filter.mp hp).2
  have hR := drawEach_length σ
    ((ensure_each_category (build_charset il iu idg isym ea).2 ea).filter
      (fun p => decide (p ≠ []))) 0
  simp only [generate_password, hce, Bool.false_eq_true, if_false]
  split
  next hgt =>
    refine ⟨_, rfl, ?_, ?_, ?_⟩
    · simp
    · intro c hc
      simp only [List.mem_map, List.mem_range] at hc
      obtain ⟨i, _, rfl⟩ := hc
      exact choice_mem _ _ h
    · intro hle p hp hpne
      exfalso
      omega
  next hgt =>
    refine ⟨_, rfl, ?_, ?_, ?_⟩
    · rw [fyAux_length, List.length_append, List.length_map, List.length_range]
      omega
    · intro c hc
      rw [fyAux_mem_iff] at hc
      rcases List.mem_append.mp hc with hc1 | hc2
      · obtain ⟨p, hp, hcp⟩ := drawEach_sub σ _ hne 0 c hc1
        exact part_subset_charset il iu idg isym ea p (List.mem_filter.mp hp).1 c hcp
      · simp only [List.mem_map, List.mem_range] at hc2
        obtain ⟨i, _, rfl⟩ := hc2
        exact choice_mem _ _ h
    · intro hle p hp hpne
      have hp' : p ∈ (ensure_each_category (build_charset il iu idg isym ea).2 ea).filter
          (fun p => decide (p ≠ [])) := List.mem_filter.mpr ⟨hp, by simpa⟩
      obtain ⟨c, hc1, hc2⟩ := drawEach_cover σ _ 0 p hp' hpne
      refine ⟨c, ?_, hc2⟩
      rw [fyAux_mem_iff]
      exact List.mem_append.mpr (Or.inl hc1)

/-- Characters of the ambiguous-excluded charset avoid `AMBIG`. -/
theorem mem_charset_excl_not_ambig (il iu idg isym : Bool) (c : Char)
    (hc : c ∈ (build_charset il iu idg isym true).1) : c ∉ AMBIG := by
  simp only [build_charset, if_true] at hc
  have := (List.mem_filter.mp hc).2
  simpa using this

/-- C4: whenever the effective charset is non-empty, `generate_password`
succeeds and returns a password of exactly the requested length, all of
whose characters belong to the effective charset. -/
theorem generate_length_and_containment (length : Nat) (il iu idg isym ea : Bool)
    (σ : Nat → Nat) (h : (build_charset il iu idg isym ea).1 ≠ []) :
    ∃ pwd, generate_password length il iu idg isym ea σ = Except.ok pwd ∧
      pwd.length = length ∧ ∀ c ∈ pwd, c ∈ (build_charset il iu idg isym ea).1 := by
  obtain ⟨pwd, h1, h2, h3, _⟩ := generate_password_spec length il iu idg isym ea σ h
  exact ⟨pwd, h1, h2, h3⟩

/-- Witness for C4 at the default GUI configuration. -/
theorem generate_length_and_containment_witness :
    (build_charset true true true false true).1 ≠ [] ∧
    ∃ pwd, generate_password 12 true true true false true (fun _ => 0) = Except.ok pwd ∧
      pwd.length = 12 ∧ ∀ c ∈ pwd, c ∈ (build_charset true true true false true).1 :=
  ⟨by decide,
    generate_length_and_containment 12 true true true false true (fun _ => 0) (by decide)⟩

/-- C3: when the number of non-empty reduced pools is at most the requested
length, every such pool contributes at least one character to the
password. -/
theorem coverage_guarantee (length : Nat) (il iu idg isym ea : Bool)
    (σ : Nat → Nat) (h : (build_charset il iu idg isym ea).1 ≠ [])
    (hfit : ((ensure_each_category (build_charset il iu idg isym ea).2 ea).filter
        (fun p => decide (p ≠ []))).length ≤ length) :
    ∃ pwd, generate_password length il iu idg isym ea σ = Except.ok pwd ∧
      ∀ p ∈ ensure_each_category (build_charset il iu idg isym ea).2 ea, p ≠ [] →
        ∃ c ∈ pwd, c ∈ p := by
  obtain ⟨pwd, h1, _, _, h4⟩ := generate_password_spec length il iu idg isym ea σ h
  exact ⟨pwd, h1, h4 hfit⟩

/-- Witness for C3 with lowercase and digits at length 4. -/
theorem coverage_guarantee_witness :
    ((build_charset true false true false false).1 ≠ [] ∧
      ((ensure_each_category (build_charset true false true false false).2 false).filter
        (fun p => decide (p ≠ []))).length ≤ 4) ∧
    ∃ pwd, generate_password 4 true false true false false (fun _ => 1) = Except.ok pwd ∧
      ∀ p ∈ ensure_each_category (build_charset true false true false false).2 false,
        p ≠ [] → ∃ c ∈ pwd, c ∈ p :=
  ⟨⟨by decide, by decide⟩,
    coverage_guarantee 4 true false true false false (fun _ => 1) (by decide) (by decide)⟩

/-- C5: with ambiguous exclusion enabled, no generated character is one of
the ambiguous characters `I`, `l`, `1`, `O`, `0`. -/
theorem ambiguous_exclusion (length : Nat) (il iu idg isym : Bool)
    (σ : Nat → Nat) (h : (build_charset il iu idg isym true).1 ≠ []) :
    ∃ pwd, generate_password length il iu idg isym true σ = Except.ok pwd ∧
      ∀ c ∈ pwd, c ∉ AMBIG := by
  obtain ⟨pwd, h1, _, h3, _⟩ := generate_password_spec length il iu idg isym true σ h
  exact ⟨pwd, h1, fun c hc => mem_charset_excl_not_ambig il iu idg isym c (h3 c hc)⟩

/-- Witness for C5 at the default GUI configuration. -/
theorem ambiguous_exclusion_witness :
    (build_charset true true true false true).1 ≠ [] ∧
    ∃ pwd, generate_password 12 true true true false true (fun _ => 0) = Except.ok pwd ∧
      ∀ c ∈ pwd, c ∉ AMBIG :=
  ⟨by decide, ambiguous_exclusion 12 true true true false (fun _ => 0) (by decide)⟩

/-- C10: the union charset equals the concatenation of the reduced
per-category pools, and every required-set draw from a non-empty pool lies
in the union charset. -/
theorem charset_union_eq_pools (il iu idg isym ea : Bool) :
    (build_charset il iu idg isym ea).1
      = (ensure_each_category (build_charset il iu idg isym ea).2 ea).flatten ∧
    ∀ p ∈ ensure_each_category (build_charset il iu idg isym ea).2 ea, p ≠ [] →
      ∀ r : Nat, choice p r ∈ (build_charset il iu idg isym ea).1 := by
  refine ⟨charset_eq_flatten il iu idg isym ea, fun p hp hpne r => ?_⟩
  exact part_subset_charset il iu idg isym ea p hp _ (choice_mem p r hpne)

/-- Witness for C10 at a concrete configuration and pool. -/
theorem charset_union_eq_pools_witness :
    (build_charset true true true false false).1
      = (ensure_each_category (build_charset true true true false false).2 false).flatten ∧
    choice LOWER 3 ∈ (build_charset true true true false false).1 :=
  ⟨(charset_union_eq_pools true true true false false).1,
    (charset_union_eq_pools true true true false false).2 LOWER (by decide) (by decide) 3⟩

/-- C1: at the boundary input of the spec (three enabled categories,
requested length 2) the code does not raise any error: it silently returns
the two-character password built from unconstrained charset draws — here
`"aa"`, which contains no uppercase letter and no digit, so the coverage
guarantee is silently dropped. -/
theorem generate_short_silent_fallback :
    generate_password 2 true true true false false (fun _ => 0) = Except.ok ['a', 'a'] ∧
    ∀ c ∈ ['a', 'a'], c ∉ UPPER ∧ c ∉ DIGITS := by
  exact ⟨rfl, by decide⟩

/-- C2 counterexample: a request with `length = 0` is not rejected — after
performing its per-category draws the code returns the empty password — and
a batch request with `count = 0` silently returns no passwords. -/
theorem invalid_inputs_not_rejected_cex :
    generate_password 0 true false false false false (fun _ => 0) = Except.ok [] ∧
    on_generate 16 0 true true true false true (fun _ _ => 0) = Except.ok [] :=
  ⟨rfl, rfl⟩

/-- C2 (amended): degenerate inputs are not rejected.  With a non-empty
charset, a request with `length = 0` (Python's `length <= 0` behaves the
same way, `range` being empty for non-positive arguments) succeeds with the
empty password, and a batch request with `count = 0` succeeds with an empty
result list; only an empty effective charset is rejected. -/
theorem degenerate_inputs_silent (L : Nat) (il iu idg isym ea : Bool)
    (σ : Nat → Nat) (σs : Nat → Nat → Nat)
    (h : (build_charset il iu idg isym ea).1 ≠ []) :
    generate_password 0 il iu idg isym ea σ = Except.ok [] ∧
    on_generate L 0 il iu idg isym ea σs = Except.ok [] := by
  have hce : (build_charset il iu idg isym ea).1.isEmpty = false := by
    rw [Bool.eq_false_iff]
    intro hx
    exact h (List.isEmpty_iff.mp hx)
  constructor
  · have hnp : ((ensure_each_category (build_charset il iu idg isym ea).2 ea).filter
        (fun p => decide (p ≠ []))) ≠ [] := by
      intro hnil
      apply h
      rw [charset_eq_flatten il iu idg isym ea, List.flatten_eq_nil_iff]
      intro p hp
      have := List.filter_eq_nil_iff.mp hnil p hp
      simpa using this
    have hlen : 0 < ((ensure_each_category (build_charset il iu idg isym ea).2 ea).filter
        (fun p => decide (p ≠ []))).length := List.length_pos.mpr hnp
    have hR := drawEach_length σ
      ((ensure_each_category (build_charset il iu idg isym ea).2 ea).filter
        (fun p => decide (p ≠ []))) 0
    simp only [generate_password, hce, Bool.false_eq_true, if_false]
    rw [if_pos (by omega)]
    simp
  · simp only [on_generate, hce, Bool.false_eq_true, if_false]
    rfl

/-- Witness for the amended C2 at the default GUI configuration. -/
theorem degenerate_inputs_silent_witness :
    (build_charset true true true false true).1 ≠ [] ∧
    (generate_password 0 true true true false true (fun _ => 0) = Except.ok [] ∧
      on_generate 16 0 true true true false true (fun _ _ => 0) = Except.ok []) :=
  ⟨by decide,
    degenerate_inputs_silent 16 true true true false true (fun _ => 0) (fun _ _ => 0)
      (by decide)⟩

/-- C6: `strength_label` realises exactly the spec's thresholds: below 28
bits "Very weak", `[28, 36)` "Weak", `[36, 60)` "Reasonable", `[60, 80)`
"Strong", and at least 80 bits "Very strong". -/
theorem strength_label_thresholds (b : Real) :
    (b < 28 → strength_label b = "Very weak") ∧
    (28 ≤ b → b < 36 → strength_label b = "Weak") ∧
    (36 ≤ b → b < 60 → strength_label b = "Reasonable") ∧
    (60 ≤ b → b < 80 → strength_label b = "Strong") ∧
    (80 ≤ b → strength_label b = "Very strong") := by
  unfold strength_label
  refine ⟨?_, ?_, ?_, ?_, ?_⟩ <;> intros <;> split_ifs <;>
    first
    | rfl
    | (exfalso; linarith)

/-- Witness for C6 in the "Weak" band. -/
theorem strength_label_thresholds_witness :
    ((28 : Real) ≤ 30 ∧ (30 : Real) < 36) ∧ strength_label 30 = "Weak" :=
  ⟨⟨by norm_num, by norm_num⟩,
    (strength_label_thresholds 30).2.1 (by norm_num) (by norm_num)⟩

/-- C7 counterexample: for the spec's example configuration (lowercase,
uppercase and digits enabled, symbols disabled, ambiguous excluded) the
effective charset has 57 characters, not 54. -/
theorem spec_example_size_cex :
    (build_charset true true true false true).1.length = 57 ∧
    ¬ (build_charset true true true false true).1.length = 54 := by
  decide

/-- C7 (amended): for the example configuration the effective charset is
the union of the three alphabets minus `I,l,O,0,1`, with 25 + 24 + 8 = 57
characters; the entropy estimate at length 12 is `12 * log2 57`, which lies
strictly between 69 and 70 bits, and the strength label is "Strong". -/
theorem spec_example_corrected :
    (build_charset true true true false true).1
      = (LOWER ++ UPPER ++ DIGITS).filter (fun ch => decide (ch ∉ AMBIG)) ∧
    (build_charset true true true false true).1.length = 57 ∧
    estimate_entropy 12 57 = 12 * Real.logb 2 57 ∧
    (69 < estimate_entropy 12 57 ∧ estimate_entropy 12 57 < 70) ∧
    strength_label (estimate_entropy 12 57) = "Strong" := by
  have hent : estimate_entropy 12 57 = 12 * Real.logb 2 57 := by
    unfold estimate_entropy
    rw [if_neg (by norm_num)]
    norm_num
  have h69 : (69 : Real) < 12 * Real.logb 2 57 := by
    have h1 : Real.logb 2 ((2 : Real) ^ (69 : Nat)) < Real.logb 2 ((57 : Real) ^ (12 : Nat)) := by
      apply Real.logb_lt_logb (by norm_num) (by positivity)
      norm_num
    rw [Real.logb_pow, Real.logb_pow, Real.logb_self_eq_one (by norm_num)] at h1
    push_cast at h1
    linarith
  have h70 : 12 * Real.logb 2 57 < (70 : Real) := by
    have h1 : Real.logb 2 ((57 : Real) ^ (12 : Nat)) < Real.logb 2 ((2 : Real) ^ (70 : Nat)) := by
      apply Real.logb_lt_logb (by norm_num) (by positivity)
      norm_num
    rw [Real.logb_pow, Real.logb_pow, Real.logb_self_eq_one (by norm_num)] at h1
    push_cast at h1
    linarith
  have hs : strength_label (estimate_entropy 12 57) = "Strong" := by
    rw [hent]
    unfold strength_label
    rw [if_neg (by linarith), if_neg (by linarith), if_neg (by linarith), if_pos (by linarith)]
  refine ⟨by decide, by decide, hent, ⟨?_, ?_⟩, hs⟩
  · rw [hent]
    exact h69
  · rw [hent]
    exact h70
